import Mathlib

/-!
Verification of the pivid frame prefetch/cache subsystem headers and the
UNIX system layer (`src/unix_system.cpp`), against the repository's
specification.  Times are modelled as rational seconds.
-/

namespace Pivid

/-- Media/system time in seconds (the spec's real-valued `Seconds`). -/
abbrev Seconds := ℚ

/-- A half-open interval `[lo, hi)`, the element type of an `IntervalSet`. -/
abbrev Iv := Seconds × Seconds

namespace IntervalSet

/-- Modelled from the spec: `interval_set.h` is not under `src/`; the spec
describes an IntervalSet as a canonicalized, disjoint, sorted collection of
half-open intervals, non-empty, non-overlapping and non-adjacent.  `canon`
decides that invariant on the list representation. -/
def canon : List Iv → Bool
  | [] => true
  | (l, h) :: rest =>
    decide (l < h) &&
      (match rest with
       | [] => true
       | (l2, _) :: _ => decide (h < l2)) &&
      canon rest

/-- The canonicity invariant as a proposition. -/
def Canon (s : List Iv) : Prop := canon s = true

instance (s : List Iv) : Decidable (Canon s) := by
  unfold Canon; infer_instance

/-- Point membership, as a proposition: some interval of `s` contains `t`. -/
def containsP (s : List Iv) (t : Seconds) : Prop :=
  ∃ p ∈ s, p.1 ≤ t ∧ t < p.2

instance (s : List Iv) (t : Seconds) : Decidable (containsP s t) := by
  unfold containsP; infer_instance

/-- Modelled from the spec: `contains(t)` is true iff some interval
contains `t` (spec section 4.1). -/
def containsB (s : List Iv) (t : Seconds) : Bool :=
  s.any (fun p => decide (p.1 ≤ t) && decide (t < p.2))

/-- Modelled from the spec: core of `insert(a, b)` for `a < b`; merges with
any overlapping or exactly-touching intervals (spec section 4.1). -/
def insert1 (a b : Seconds) : List Iv → List Iv
  | [] => [(a, b)]
  | (l, h) :: rest =>
    if h < a then (l, h) :: insert1 a b rest
    else if b < l then (a, b) :: (l, h) :: rest
    else insert1 (min a l) (max b h) rest

/-- Modelled from the spec: `insert(a, b)` is a no-op when `a ≥ b`
(spec section 4.1). -/
def insert (a b : Seconds) (s : List Iv) : List Iv :=
  if a < b then insert1 a b s else s

/-- Modelled from the spec: core of `erase(a, b)` for `a < b`; splits
overlapping intervals and removes fully-covered ones (spec section 4.1). -/
def erase1 (a b : Seconds) : List Iv → List Iv
  | [] => []
  | (l, h) :: rest =>
    if h ≤ a then (l, h) :: erase1 a b rest
    else if b ≤ l then (l, h) :: rest
    else
      (if l < a then [(l, a)] else []) ++
        ((if b < h then [(b, h)] else []) ++ erase1 a b rest)

/-- Modelled from the spec: `erase(a, b)` erases the point set `[a, b)`,
a no-op when that set is empty. -/
def erase (a b : Seconds) (s : List Iv) : List Iv :=
  if a < b then erase1 a b s else s

/-- Modelled from the spec: set union via linear combination of `insert`
(spec sections 3 and 4.1). -/
def union (A B : List Iv) : List Iv :=
  B.foldl (fun acc p => insert p.1 p.2 acc) A

/-- Modelled from the spec: set difference `A ∖ B` via `erase` of each
interval of `B` (spec sections 3 and 4.1). -/
def difference (A B : List Iv) : List Iv :=
  B.foldl (fun acc p => erase p.1 p.2 acc) A

end IntervalSet

open IntervalSet in
/-- Modelled from the spec: the loader worker state of spec section 4.2.1,
`{request, have (== content.cover), frames, eof}` plus the errored flag of
section 4.2.4.  `frame_loader.cpp` is not under `src/`; `frames` keeps only
the key times, since the loader stores each decoded frame at the key equal
to its own media time.  The spec's `have` is named `cover` here
(`have == content.cover`, and `have` is reserved in Lean). -/
structure LoaderState where
  request : List Iv
  cover : List Iv
  frames : List Seconds
  eofPos : Option Seconds
  error : Bool
deriving DecidableEq

open IntervalSet in
/-- Modelled from the spec: one wake-cycle action of the loader worker
(spec sections 4.2.1 and 4.2.4), relative to a decoder that would emit
frames at the times listed in `dec`.
1. `set_request` replaces the request (requests are IntervalSets).
2. `set_request_errored`: after a terminal error, `set_request` calls are
   accepted but are a no-op until destruction.
3. `trim` is step 1: drop all frames whose time falls in
   `surplus = have ∖ wanted` and subtract those regions from `have`.
4. `load` is steps 3-4: decode a span `[a, b)` of wanted media time, then
   cache every decoder frame in it and extend `have` by the span
   (only portions inside `wanted` are covered, hypothesis `hw`).
5. `load_eof` is step 5: extend `have` to EOF within `wanted`; the
   extension holds no decoder frame beyond those already imported.
6. `fail` is section 4.2.4: a terminal decoder error freezes the state. -/
inductive Step (dec : List Seconds) : LoaderState → LoaderState → Prop
  | set_request (s : LoaderState) (r : List Iv) (hr : Canon r)
      (he : s.error = false) :
      Step dec s { s with request := r }
  | set_request_errored (s : LoaderState) (he : s.error = true) :
      Step dec s s
  | trim (s : LoaderState) (he : s.error = false) :
      Step dec s { s with
        cover := difference s.cover (difference s.cover s.request),
        frames := s.frames.filter
          (fun τ => !(containsB (difference s.cover s.request) τ)) }
  | load (s : LoaderState) (a b : Seconds) (hab : a < b)
      (he : s.error = false)
      (hw : ∀ t, a ≤ t → t < b → containsP s.request t) :
      Step dec s { s with
        cover := IntervalSet.insert a b s.cover,
        frames := s.frames ++
          dec.filter (fun τ => decide (a ≤ τ) && decide (τ < b)) }
  | load_eof (s : LoaderState) (a e : Seconds) (hae : a < e)
      (he : s.error = false)
      (hfr : ∀ τ ∈ dec, a ≤ τ → τ < e → τ ∈ s.frames)
      (hw : ∀ t, a ≤ t → t < e → containsP s.request t) :
      Step dec s { s with
        cover := IntervalSet.insert a e s.cover,
        eofPos := some e }
  | fail (s : LoaderState) (he : s.error = false) :
      Step dec s { s with error := true }

/-- The loader starts empty: no request, nothing cached, no EOF, no error. -/
def initLoader : LoaderState := ⟨[], [], [], none, false⟩

/-- States the loader worker can reach from the initial state. -/
inductive Reachable (dec : List Seconds) : LoaderState → Prop
  | init : Reachable dec initLoader
  | step {s s' : LoaderState} :
      Reachable dec s → Step dec s s' → Reachable dec s'

open IntervalSet in
/-- The loader invariant: the cover is canonical, and every decoder frame
time inside the cover is cached in `frames` (the spec's LoaderContent
invariant, section 3). -/
def LoaderInv (dec : List Seconds) (s : LoaderState) : Prop :=
  Canon s.cover ∧ ∀ τ ∈ dec, containsP s.cover τ → τ ∈ s.frames

open IntervalSet in
/-- The frame the decoder would produce at media time `t`: the decoder
frame with the greatest time at or before `t`. -/
def frameFor (dec : List Seconds) (t τ : Seconds) : Prop :=
  τ ∈ dec ∧ τ ≤ t ∧ ∀ τ' ∈ dec, τ' ≤ t → τ' ≤ τ

open IntervalSet in
/-- The cover-soundness property claimed of `FrameLoader::content()`: every
media time `t` in the cover has a frames entry at a key at most `t` whose
value is the frame the decoder would produce at `t`, within a tolerance of
`tol` (one frame interval).  In this model the entry at key `k` holds the
decoder frame of time `k`, so value agreement within tolerance means the
key is within `tol` of the frame time the decoder would use for `t`. -/
def CoverSound (dec : List Seconds) (tol : Seconds) (s : LoaderState) : Prop :=
  ∀ t, containsP s.cover t →
    ∃ k, k ∈ s.frames ∧ k ≤ t ∧ ∀ τ, frameFor dec t τ → τ - tol ≤ k

/-- The member functions declared by `class MediaDecoder` in
`src/media_decoder.h` (besides the virtual destructor). -/
def mediaDecoderMembers : List String :=
  ["info", "reached_eof", "get_frame_if_ready"]

/-- The member functions declared by `class DisplayDriver` in
`src/display_output.h` (besides the virtual destructor). -/
def displayDriverMembers : List String :=
  ["scan_outputs", "make_buffer", "ready_for_update", "update_output"]

/-- The fields of `struct FrameLoader::Content` in `src/frame_loader.h`
(name and declared C++ type). -/
def frameLoaderContentFields : List (String × String) :=
  [("frames", "std::map<Seconds, std::shared_ptr<LoadedImage>>"),
   ("cover", "IntervalSet<Seconds>"),
   ("eof", "std::optional<Seconds>")]

/-- How a UnixSystem handle reaches each declared consumer in the headers
under `src/`: as a passed-in parameter or field, or by calling the
process-global `global_system()` accessor. -/
inductive SysAcq where
  | passedIn
  | globalSingleton
deriving DecidableEq

/-- Every declaration in the `src/` headers that consumes a `UnixSystem`,
with how it obtains the handle: `ScriptContext::sys` is a field set by the
caller (`src/script_runner.h`), and `list_display_drivers` /
`open_display_driver` take a `UnixSystem*` parameter
(`src/display_output.h`). -/
def unixSystemConsumers : List (String × SysAcq) :=
  [("ScriptContext.sys", SysAcq.passedIn),
   ("list_display_drivers", SysAcq.passedIn),
   ("open_display_driver", SysAcq.passedIn)]

/-- Call sites of `global_system()` in the files under `src/`: there are
none (it is declared in `src/unix_system.cpp` for code outside this
excerpt). -/
def globalSystemCallersInSrc : List String := []

/-- Translation of `struct ErrnoOr` as used by `run_sys` in
`src/unix_system.cpp`: an errno value and a result value. -/
structure ErrnoOr where
  err : Int
  value : Int
deriving DecidableEq

/-- Linux errno value for an interrupted system call. -/
def EINTR : Int := 4

/-- Translation of `run_sys` from `src/unix_system.cpp`.  The wrapped call
`f` is modelled by the list of `(return value, errno)` pairs its successive
invocations would produce; `none` means every listed invocation failed with
EINTR (the C++ recursion would still be running).
C++ source:
`ret.value = f(); ret.err = errno;`
`if (ret.value < 0 && ret.err == EINTR) return run_sys(f);`
`return (ret.value >= 0) ? ErrnoOr<int>(0, ret.value) : ret;` -/
def run_sys : List (Int × Int) → Option ErrnoOr
  | [] => none
  | (v, e) :: rest =>
    if v < 0 ∧ e = EINTR then run_sys rest
    else if 0 ≤ v then some ⟨0, v⟩ else some ⟨e, v⟩

/-- System calls issued by the `FileDescriptorDef` methods, tagged with the
raw descriptor they operate on. -/
inductive SysCall where
  | close (fd : Int)
  | read (fd : Int)
  | write (fd : Int)
  | ioctl (fd : Int)
deriving DecidableEq

namespace FileDescriptorDef

/-- Translation of `virtual ~FileDescriptorDef() final { ::close(fd); }`
(`src/unix_system.cpp`): the system calls the destructor body issues. -/
def destructor (fd : Int) : List SysCall := [SysCall.close fd]

/-- System calls issued by `FileDescriptorDef::read` (one `::read(fd, ...)`
per invocation of the wrapped call; `run_sys` only repeats it on EINTR). -/
def read (fd : Int) : List SysCall := [SysCall.read fd]

/-- System calls issued by `FileDescriptorDef::write`. -/
def write (fd : Int) : List SysCall := [SysCall.write fd]

/-- System calls issued by `FileDescriptorDef::ioctl`. -/
def ioctl (fd : Int) : List SysCall := [SysCall.ioctl fd]

end FileDescriptorDef

namespace ThreadSignalDef

/-- Translation of `ThreadSignalDef::set` (`src/unix_system.cpp`): under
the mutex, if the flag is clear it is raised and the condition variable
notified once.  Returns (new flag, whether notify_one was called). -/
def set (signal_flag : Bool) : Bool × Bool :=
  if signal_flag then (signal_flag, false) else (true, true)

/-- Translation of `ThreadSignalDef::wait`: returns `some` new flag when
the wait completes (the flag was up and is consumed), `none` when the
caller would block until a future `set`. -/
def wait (signal_flag : Bool) : Option Bool :=
  if signal_flag then some false else none

/-- Translation of `ThreadSignalDef::wait_until` at its deadline: returns
(signaled?, new flag); with the flag up it returns true and consumes the
flag without blocking, otherwise it can time out returning false. -/
def wait_until (signal_flag : Bool) : Bool × Bool :=
  if signal_flag then (true, false) else (false, signal_flag)

/-- Translation of `ThreadSignalDef::wait_for` at its deadline, with the
same flag discipline as `wait_until`. -/
def wait_for (signal_flag : Bool) : Bool × Bool :=
  if signal_flag then (true, false) else (false, signal_flag)

end ThreadSignalDef

/-- Value of a digit string read left to right in base 10. -/
def natOfDigits (ds : List Char) : ℕ :=
  ds.foldl (fun a c => 10 * a + (c.toNat - 48)) 0

/-- Value of the digits after the decimal point. -/
def fracOfDigits (ds : List Char) : ℚ :=
  (natOfDigits ds : ℚ) / (10 : ℚ) ^ ds.length

/-- Optional leading sign of a number: (negative?, remaining input). -/
def signSplit (cs : List Char) : Bool × List Char :=
  match cs with
  | [] => (false, [])
  | c :: r =>
    if c = '-' then (true, r)
    else if c = '+' then (false, r)
    else (false, cs)

/-- Longest digit run at the front of the input: (digits, rest). -/
def spanDigits : List Char → List Char × List Char
  | [] => ([], [])
  | c :: r =>
    if c.isDigit then
      let t := spanDigits r
      (c :: t.1, t.2)
    else ([], c :: r)

/-- Model of `std::stod(s, &end)` on its decimal forms: optional
whitespace, optional sign, digits with at most one decimal point and an
optional exponent (the hexadecimal, infinity and nan forms are not
modelled).  Returns the parsed value and the unconsumed suffix — the C++
`end >= s.size()` test corresponds to an empty suffix — or `none` when no
conversion can be performed, where `std::stod` throws
`std::invalid_argument`. -/
def stod (cs : List Char) : Option (ℚ × List Char) :=
  let cs1 := cs.dropWhile Char.isWhitespace
  let sn := signSplit cs1
  let ip := spanDigits sn.2
  let fp : List Char × List Char :=
    match ip.2 with
    | '.' :: r => spanDigits r
    | _ => ([], ip.2)
  if ip.1 = [] ∧ fp.1 = [] then none
  else
    let mag : ℚ := (natOfDigits ip.1 : ℚ) + fracOfDigits fp.1
    let m : ℚ := if sn.1 then -mag else mag
    match fp.2 with
    | c :: r =>
      if c = 'e' ∨ c = 'E' then
        let esn := signSplit r
        let ep := spanDigits esn.2
        if ep.1 = [] then some (m, fp.2)
        else if esn.1 then some (m / (10 : ℚ) ^ natOfDigits ep.1, ep.2)
        else some (m * (10 : ℚ) ^ natOfDigits ep.1, ep.2)
      else some (m, fp.2)
    | [] => some (m, [])

/-- Result of `parse_time`: a value in seconds, or a thrown
`std::invalid_argument` with its message kind. -/
inductive TimeResult where
  | ok (seconds : ℚ)
  | invalid_argument (msg : String)
deriving DecidableEq

/-- The four date-time format strings `parse_time` tries in order
(`src/unix_system.cpp`). -/
def pividDateFormats : List String :=
  ["%FT%H:%M:%20SZ", "%FT%H:%M:%20S%Ez", "%F %H:%M:%S%Ez", "%F %H:%M:%S"]

/-- First format whose `date::from_stream` parse succeeds, under an
interpretation `I` of that external library: `I f s` is the
seconds-since-epoch value of `s` parsed with format `f`, or `none` when
the stream parse fails. -/
def fromStreamFirst (I : String → List Char → Option ℚ) :
    List String → List Char → Option ℚ
  | [], _ => none
  | f :: rest, s =>
    match I f s with
    | some t => some t
    | none => fromStreamFirst I rest s

/-- Translation of `parse_time` from `src/unix_system.cpp`, parameterized
by the interpretation `I` of the external `date::from_stream`.
`std::stod` runs first and throws when `s` has no numeric prefix; a value
parsed to the end of the string is returned directly; otherwise the four
date formats are tried in order, and when all fail the function throws
`std::invalid_argument("Bad date: ...")`. -/
def parse_time (I : String → List Char → Option ℚ) (s : List Char) : TimeResult :=
  match stod s with
  | none => TimeResult.invalid_argument "stod"
  | some dr =>
    if s ≠ [] ∧ dr.2 = [] then TimeResult.ok dr.1
    else
      match fromStreamFirst I pividDateFormats s with
      | some t => TimeResult.ok t
      | none => TimeResult.invalid_argument "Bad date"

/-- A string that is entirely a signed decimal number: an optional sign,
then digits with at most one decimal point and at least one digit. -/
def DecimalShape (s : List Char) : Prop :=
  ∃ sg ip fp, s = sg ++ ip ++ fp ∧
    (sg = [] ∨ sg = ['+'] ∨ sg = ['-']) ∧
    (∀ c ∈ ip, c.isDigit = true) ∧
    ((fp = [] ∧ ip ≠ []) ∨
      (∃ fd, fp = '.' :: fd ∧ (∀ c ∈ fd, c.isDigit = true) ∧
        (ip ≠ [] ∨ fd ≠ [])))

/-- Decoder frame times used by the cover-soundness counterexample:
frames at 0, 10 and 20 seconds (a ten-second frame interval). -/
def decThree : List Seconds := [0, 10, 20]

/-- Loader state after `set_request {[0,30)}`. -/
def loadSt1 : LoaderState := ⟨[((0 : Seconds), 30)], [], [], none, false⟩

/-- Loader state after decoding the span `[0, 30)`. -/
def loadSt2 : LoaderState :=
  ⟨[((0 : Seconds), 30)], [((0 : Seconds), 30)], [0, 10, 20], none, false⟩

/-- Loader state after `set_request {[25, 30)}`. -/
def loadSt3 : LoaderState :=
  ⟨[((25 : Seconds), 30)], [((0 : Seconds), 30)], [0, 10, 20], none, false⟩

/-- Loader state after the trim step that follows: the cover keeps
`[25, 30)` but every cached frame time fell in the surplus `[0, 25)`
and was dropped. -/
def cexTrimmed : LoaderState :=
  ⟨[((25 : Seconds), 30)], [((25 : Seconds), 30)], [], none, false⟩

/-- Decoder frame times used by the loader invariant witness. -/
def wDec : List Seconds := [0]

/-- Witness loader state: request and cover `[0, 2)`, frame 0 cached. -/
def wState : LoaderState :=
  ⟨[((0 : Seconds), 2)], [((0 : Seconds), 2)], [0], none, false⟩

/-- Errored loader state used by the freeze witness. -/
def errState : LoaderState := ⟨[], [], [], none, true⟩

namespace IntervalSet

theorem containsB_iff (s : List Iv) (t : Seconds) :
    containsB s t = true ↔ containsP s t := by
  unfold containsB containsP
  simp [List.any_eq_true]

theorem containsP_nil (t : Seconds) : ¬ containsP [] t := by
  intro h; rcases h with ⟨p, hp, _⟩; exact (List.not_mem_nil p) hp

theorem containsP_cons {p : Iv} {s : List Iv} {t : Seconds} :
    containsP (p :: s) t ↔ (p.1 ≤ t ∧ t < p.2) ∨ containsP s t := by
  unfold containsP
  constructor
  · rintro ⟨q, hq, hc⟩
    rcases List.mem_cons.mp hq with h | h
    · left; exact h ▸ hc
    · right; exact ⟨q, h, hc⟩
  · rintro (h | ⟨q, hq, hc⟩)
    · exact ⟨p, List.mem_cons_self .., h⟩
    · exact ⟨q, List.mem_cons_of_mem _ hq, hc⟩

theorem containsP_append {x y : List Iv} {t : Seconds} :
    containsP (x ++ y) t ↔ containsP x t ∨ containsP y t := by
  unfold containsP
  constructor
  · rintro ⟨q, hq, hc⟩
    rcases List.mem_append.mp hq with h | h
    · exact Or.inl ⟨q, h, hc⟩
    · exact Or.inr ⟨q, h, hc⟩
  · rintro (⟨q, hq, hc⟩ | ⟨q, hq, hc⟩)
    · exact ⟨q, List.mem_append_left _ hq, hc⟩
    · exact ⟨q, List.mem_append_right _ hq, hc⟩

theorem canon_nil : Canon [] := rfl

theorem canon_cons_elim {l h : Seconds} {rest : List Iv} :
    Canon ((l, h) :: rest) →
      l < h ∧ (∀ l2 h2 r, rest = (l2, h2) :: r → h < l2) ∧ Canon rest := by
  intro hc
  unfold Canon canon at hc
  rcases rest with _ | ⟨⟨l2, h2⟩, r⟩
  · simp at hc
    exact ⟨hc.1, (fun _ _ _ h => by cases h), rfl⟩
  · simp at hc
    refine ⟨hc.1.1, ?_, hc.2⟩
    intro l2' h2' r' heq
    cases heq
    exact hc.1.2

theorem canon_head_lt {l h : Seconds} {rest : List Iv} (hc : Canon ((l, h) :: rest)) :
    l < h := (canon_cons_elim hc).1

theorem canon_tail {p : Iv} {rest : List Iv} (hc : Canon (p :: rest)) : Canon rest := by
  obtain ⟨l, h⟩ := p
  exact (canon_cons_elim hc).2.2

theorem canon_lt_of_mem {l h : Seconds} {rest : List Iv} (hc : Canon ((l, h) :: rest)) :
    ∀ p ∈ rest, h < p.1 := by
  induction rest generalizing l h with
  | nil => intro p hp; exact absurd hp (List.not_mem_nil p)
  | cons q r ih =>
    intro p hp
    obtain ⟨l2, h2⟩ := q
    obtain ⟨_, hgap, hcr⟩ := canon_cons_elim hc
    have hl2 : h < l2 := hgap l2 h2 r rfl
    rcases List.mem_cons.mp hp with h' | h'
    · rw [h']; exact hl2
    · have := ih hcr p h'
      have hlh2 : l2 < h2 := canon_head_lt hcr
      calc h < l2 := hl2
        _ < h2 := hlh2
        _ < p.1 := this

theorem canon_lh_of_mem {s : List Iv} (hc : Canon s) : ∀ p ∈ s, p.1 < p.2 := by
  induction s with
  | nil => intro p hp; exact absurd hp (List.not_mem_nil p)
  | cons q r ih =>
    intro p hp
    obtain ⟨l, h⟩ := q
    rcases List.mem_cons.mp hp with h' | h'
    · rw [h']; exact canon_head_lt hc
    · exact ih (canon_tail hc) p h'

theorem canon_cons_of {l h : Seconds} {rest : List Iv}
    (hlh : l < h) (hrest : Canon rest) (hlo : ∀ p ∈ rest, h < p.1) :
    Canon ((l, h) :: rest) := by
  unfold Canon canon
  rcases rest with _ | ⟨⟨l2, h2⟩, r⟩
  · simp [IntervalSet.canon, hlh]
  · have := hlo (l2, h2) (List.mem_cons_self ..)
    simp only [Bool.and_eq_true, decide_eq_true_eq]
    exact ⟨⟨hlh, this⟩, hrest⟩

theorem insert1_lo {a b c : Seconds} {s : List Iv}
    (hca : c < a) (hs : ∀ p ∈ s, c < p.1) :
    ∀ p ∈ insert1 a b s, c < p.1 := by
  induction s generalizing a b with
  | nil =>
    intro p hp
    rcases List.mem_singleton.mp hp with h
    rw [h]; exact hca
  | cons q rest ih =>
    obtain ⟨l, h⟩ := q
    intro p hp
    by_cases h1 : h < a
    · rw [insert1, if_pos h1] at hp
      rcases List.mem_cons.mp hp with h' | h'
      · rw [h']; exact hs (l, h) (List.mem_cons_self ..)
      · exact ih hca (fun q hq => hs q (List.mem_cons_of_mem _ hq)) p h'
    · by_cases h2 : b < l
      · rw [insert1, if_neg h1, if_pos h2] at hp
        rcases List.mem_cons.mp hp with h' | h'
        · rw [h']; exact hca
        · exact hs p h'
      · rw [insert1, if_neg h1, if_neg h2] at hp
        have hcl : c < l := hs (l, h) (List.mem_cons_self ..)
        exact ih (lt_min hca hcl) (fun q hq => hs q (List.mem_cons_of_mem _ hq)) p hp

theorem insert1_canon {a b : Seconds} {s : List Iv}
    (hab : a < b) (hs : Canon s) : Canon (insert1 a b s) := by
  induction s generalizing a b with
  | nil =>
    unfold insert1
    exact canon_cons_of hab canon_nil (fun p hp => absurd hp (List.not_mem_nil p))
  | cons q rest ih =>
    obtain ⟨l, h⟩ := q
    by_cases h1 : h < a
    · rw [insert1, if_pos h1]
      exact canon_cons_of (canon_head_lt hs)
        (ih hab (canon_tail hs))
        (insert1_lo h1 (canon_lt_of_mem hs))
    · by_cases h2 : b < l
      · rw [insert1, if_neg h1, if_pos h2]
        exact canon_cons_of hab hs
          (by
            intro p hp
            rcases List.mem_cons.mp hp with h' | h'
            · rw [h']; exact h2
            · calc b < l := h2
                _ < h := canon_head_lt hs
                _ < p.1 := canon_lt_of_mem hs p h')
      · rw [insert1, if_neg h1, if_neg h2]
        have : min a l < max b h :=
          lt_of_le_of_lt (min_le_left a l) (lt_of_lt_of_le hab (le_max_left b h))
        exact ih this (canon_tail hs)

/-- Union of the point sets of two overlapping-or-touching nonempty intervals
is again one interval, described by min and max of the endpoints. -/
theorem merge_point_iff {a b l h t : Seconds}
    (_hab : a < b) (_hlh : l < h) (h1 : ¬ h < a) (h2 : ¬ b < l) :
    (min a l ≤ t ∧ t < max b h) ↔ (a ≤ t ∧ t < b) ∨ (l ≤ t ∧ t < h) := by
  push_neg at h1 h2
  constructor
  · rintro ⟨hmin, hmax⟩
    rcases le_total a l with hal | hla
    · rw [min_eq_left hal] at hmin
      by_cases htb : t < b
      · exact Or.inl ⟨hmin, htb⟩
      · push_neg at htb
        refine Or.inr ⟨le_trans h2 htb, ?_⟩
        rcases le_total b h with hbh | hhb
        · rw [max_eq_right hbh] at hmax; exact hmax
        · rw [max_eq_left hhb] at hmax; linarith
    · rw [min_eq_right hla] at hmin
      by_cases hth : t < h
      · exact Or.inr ⟨hmin, hth⟩
      · push_neg at hth
        refine Or.inl ⟨le_trans h1 hth, ?_⟩
        rcases le_total b h with hbh | hhb
        · rw [max_eq_right hbh] at hmax; linarith
        · rw [max_eq_left hhb] at hmax; exact hmax
  · rintro (⟨hta, htb⟩ | ⟨htl, hth⟩)
    · exact ⟨le_trans (min_le_left a l) hta, lt_of_lt_of_le htb (le_max_left b h)⟩
    · exact ⟨le_trans (min_le_right a l) htl, lt_of_lt_of_le hth (le_max_right b h)⟩

theorem insert1_mem {a b : Seconds} {s : List Iv}
    (hab : a < b) (hs : Canon s) (t : Seconds) :
    containsP (insert1 a b s) t ↔ (a ≤ t ∧ t < b) ∨ containsP s t := by
  induction s generalizing a b with
  | nil =>
    unfold insert1
    rw [containsP_cons]
  | cons q rest ih =>
    obtain ⟨l, h⟩ := q
    by_cases h1 : h < a
    · rw [insert1, if_pos h1]
      simp only [containsP_cons, ih hab (canon_tail hs)]
      tauto
    · by_cases h2 : b < l
      · rw [insert1, if_neg h1, if_pos h2]
        simp only [containsP_cons]
      · rw [insert1, if_neg h1, if_neg h2]
        have hmm : min a l < max b h :=
          lt_of_le_of_lt (min_le_left a l) (lt_of_lt_of_le hab (le_max_left b h))
        rw [ih hmm (canon_tail hs),
          merge_point_iff hab (canon_head_lt hs) h1 h2]
        simp only [containsP_cons]
        tauto

theorem insert_canon {a b : Seconds} {s : List Iv} (hs : Canon s) :
    Canon (insert a b s) := by
  unfold insert
  by_cases hab : a < b
  · rw [if_pos hab]; exact insert1_canon hab hs
  · rw [if_neg hab]; exact hs

theorem insert_mem {a b : Seconds} {s : List Iv} (hs : Canon s) (t : Seconds) :
    containsP (insert a b s) t ↔ (a ≤ t ∧ t < b) ∨ containsP s t := by
  unfold insert
  by_cases hab : a < b
  · rw [if_pos hab]; exact insert1_mem hab hs t
  · rw [if_neg hab]
    constructor
    · exact Or.inr
    · rintro (⟨h1, h2⟩ | h)
      · exact absurd (lt_of_le_of_lt h1 h2) hab
      · exact h

theorem erase1_lo {a b c : Seconds} {s : List Iv}
    (hcb : c < b) (hs : ∀ p ∈ s, c < p.1) :
    ∀ p ∈ erase1 a b s, c < p.1 := by
  induction s with
  | nil => intro p hp; exact absurd hp (List.not_mem_nil p)
  | cons q rest ih =>
    obtain ⟨l, h⟩ := q
    have hcl : c < l := hs (l, h) (List.mem_cons_self ..)
    have hrest : ∀ p ∈ rest, c < p.1 := fun q hq => hs q (List.mem_cons_of_mem _ hq)
    intro p hp
    by_cases h1 : h ≤ a
    · rw [erase1, if_pos h1] at hp
      rcases List.mem_cons.mp hp with h' | h'
      · rw [h']; exact hcl
      · exact ih hrest p h'
    · by_cases h2 : b ≤ l
      · rw [erase1, if_neg h1, if_pos h2] at hp
        rcases List.mem_cons.mp hp with h' | h'
        · rw [h']; exact hcl
        · exact hrest p h'
      · rw [erase1, if_neg h1, if_neg h2] at hp
        rcases List.mem_append.mp hp with h' | h'
        · by_cases hla : l < a
          · rw [if_pos hla] at h'
            rcases List.mem_singleton.mp h' with h''
            rw [h'']; exact hcl
          · rw [if_neg hla] at h'; exact absurd h' (List.not_mem_nil p)
        · rcases List.mem_append.mp h' with h'' | h''
          · by_cases hbh : b < h
            · rw [if_pos hbh] at h''
              rcases List.mem_singleton.mp h'' with h3
              rw [h3]; exact hcb
            · rw [if_neg hbh] at h''; exact absurd h'' (List.not_mem_nil p)
          · exact ih hrest p h''

theorem erase1_eq_of_le {a b : Seconds} {s : List Iv}
    (hab : a < b) (hbs : ∀ p ∈ s, b ≤ p.1) (hlh : ∀ p ∈ s, p.1 < p.2) :
    erase1 a b s = s := by
  rcases s with _ | ⟨⟨l, h⟩, rest⟩
  · rfl
  · have hbl : b ≤ l := hbs (l, h) (List.mem_cons_self ..)
    have hlth : l < h := hlh (l, h) (List.mem_cons_self ..)
    have h1 : ¬ h ≤ a := by
      intro hha
      exact absurd (lt_trans (lt_of_lt_of_le hab hbl) hlth) (not_lt.mpr hha)
    rw [erase1, if_neg h1, if_pos hbl]

theorem erase1_canon {a b : Seconds} {s : List Iv}
    (hab : a < b) (hs : Canon s) : Canon (erase1 a b s) := by
  induction s with
  | nil => exact canon_nil
  | cons q rest ih =>
    obtain ⟨l, h⟩ := q
    have hrest : Canon rest := canon_tail hs
    have hlo : ∀ p ∈ rest, h < p.1 := canon_lt_of_mem hs
    have hlth : l < h := canon_head_lt hs
    by_cases h1 : h ≤ a
    · rw [erase1, if_pos h1]
      exact canon_cons_of hlth (ih hrest)
        (erase1_lo (lt_of_le_of_lt h1 hab) hlo)
    · by_cases h2 : b ≤ l
      · rw [erase1, if_neg h1, if_pos h2]; exact hs
      · rw [erase1, if_neg h1, if_neg h2]
        push_neg at h1 h2
        by_cases hla : l < a
        · rw [if_pos hla]
          by_cases hbh : b < h
          · rw [if_pos hbh]
            have heq : erase1 a b rest = rest :=
              erase1_eq_of_le hab
                (fun p hp => le_of_lt (lt_trans hbh (hlo p hp)))
                (canon_lh_of_mem hrest)
            rw [heq]
            refine canon_cons_of hla ?_ ?_
            · exact canon_cons_of hbh hrest hlo
            · intro p hp
              rcases List.mem_cons.mp hp with h' | h'
              · rw [h']; exact hab
              · exact lt_trans (lt_trans hab hbh) (hlo p h')
          · rw [if_neg hbh]
            refine canon_cons_of hla (ih hrest) ?_
            simp only [List.nil_append]
            exact erase1_lo hab (fun p hp => lt_trans h1 (hlo p hp))
        · rw [if_neg hla]
          by_cases hbh : b < h
          · rw [if_pos hbh]
            have heq : erase1 a b rest = rest :=
              erase1_eq_of_le hab
                (fun p hp => le_of_lt (lt_trans hbh (hlo p hp)))
                (canon_lh_of_mem hrest)
            simp only [List.nil_append]
            rw [heq]
            exact canon_cons_of hbh hrest hlo
          · rw [if_neg hbh]
            simp only [List.nil_append]
            exact ih hrest

/-- Removing the point set `[a, b)` from an overlapping nonempty interval
`[l, h)` leaves the two (possibly empty) side pieces. -/
theorem erase_point_iff {a b l h t : Seconds}
    (_hab : a < b) (_hlh : l < h) (h1 : ¬ h ≤ a) (h2 : ¬ b ≤ l) :
    ((l < a ∧ l ≤ t ∧ t < a) ∨ (b < h ∧ b ≤ t ∧ t < h)) ↔
      ((l ≤ t ∧ t < h) ∧ ¬ (a ≤ t ∧ t < b)) := by
  push_neg at h1 h2
  constructor
  · rintro (⟨_, hlt, hta⟩ | ⟨_, hbt, hth⟩)
    · exact ⟨⟨hlt, lt_trans hta h1⟩, fun hc => absurd hta (not_lt.mpr hc.1)⟩
    · exact ⟨⟨le_trans (le_of_lt h2) hbt, hth⟩, fun hc => absurd hc.2 (not_lt.mpr hbt)⟩
  · rintro ⟨⟨hlt, hth⟩, hout⟩
    by_cases hta : t < a
    · exact Or.inl ⟨lt_of_le_of_lt hlt hta, hlt, hta⟩
    · push_neg at hta
      have hbt : b ≤ t := by
        by_contra hc
        push_neg at hc
        exact hout ⟨hta, hc⟩
      exact Or.inr ⟨lt_of_le_of_lt hbt hth, hbt, hth⟩

theorem containsP_if_singleton {c : Prop} [Decidable c] {x y t : Seconds} :
    containsP (if c then [(x, y)] else []) t ↔ (c ∧ x ≤ t ∧ t < y) := by
  by_cases hc : c
  · rw [if_pos hc, containsP_cons]
    simp [containsP_nil, hc]
  · rw [if_neg hc]
    simp [containsP_nil, hc]

theorem erase1_mem {a b : Seconds} {s : List Iv}
    (hab : a < b) (hs : Canon s) (t : Seconds) :
    containsP (erase1 a b s) t ↔ containsP s t ∧ ¬ (a ≤ t ∧ t < b) := by
  induction s with
  | nil => simp [erase1, containsP_nil]
  | cons q rest ih =>
    obtain ⟨l, h⟩ := q
    have hrest : Canon rest := canon_tail hs
    have hlo : ∀ p ∈ rest, h < p.1 := canon_lt_of_mem hs
    have hlth : l < h := canon_head_lt hs
    by_cases h1 : h ≤ a
    · rw [erase1, if_pos h1]
      simp only [containsP_cons, ih hrest]
      constructor
      · rintro (⟨hlt, hth⟩ | ⟨hr, hout⟩)
        · exact ⟨Or.inl ⟨hlt, hth⟩,
            fun hc => absurd (lt_of_lt_of_le hth h1) (not_lt.mpr hc.1)⟩
        · exact ⟨Or.inr hr, hout⟩
      · rintro ⟨hl | hr, hout⟩
        · exact Or.inl hl
        · exact Or.inr ⟨hr, hout⟩
    · by_cases h2 : b ≤ l
      · rw [erase1, if_neg h1, if_pos h2]
        simp only [containsP_cons]
        constructor
        · rintro (⟨hlt, hth⟩ | hr)
          · exact ⟨Or.inl ⟨hlt, hth⟩,
              fun hc => absurd hc.2 (not_lt.mpr (le_trans h2 hlt))⟩
          · rcases hr with ⟨p, hp, hpt⟩
            refine ⟨Or.inr ⟨p, hp, hpt⟩, fun hc => ?_⟩
            have : h < p.1 := hlo p hp
            have : b ≤ t := le_trans (le_trans h2 (le_of_lt hlth))
              (le_trans (le_of_lt this) hpt.1)
            exact absurd hc.2 (not_lt.mpr this)
        · rintro ⟨hl | hr, _⟩
          · exact Or.inl hl
          · exact Or.inr hr
      · rw [erase1, if_neg h1, if_neg h2]
        have hpt := erase_point_iff hab hlth h1 h2 (t := t)
        simp only [containsP_append, containsP_if_singleton, ih hrest,
          containsP_cons]
        constructor
        · rintro (hp1 | hp2 | ⟨hr, hout⟩)
          · have := hpt.mp (Or.inl hp1); exact ⟨Or.inl this.1, this.2⟩
          · have := hpt.mp (Or.inr hp2); exact ⟨Or.inl this.1, this.2⟩
          · exact ⟨Or.inr hr, hout⟩
        · rintro ⟨hlh2 | hr, hout⟩
          · rcases hpt.mpr ⟨hlh2, hout⟩ with h' | h'
            · exact Or.inl h'
            · exact Or.inr (Or.inl h')
          · exact Or.inr (Or.inr ⟨hr, hout⟩)

theorem erase_canon {a b : Seconds} {s : List Iv} (hs : Canon s) :
    Canon (erase a b s) := by
  unfold erase
  by_cases hab : a < b
  · rw [if_pos hab]; exact erase1_canon hab hs
  · rw [if_neg hab]; exact hs

theorem erase_mem {a b : Seconds} {s : List Iv} (hs : Canon s) (t : Seconds) :
    containsP (erase a b s) t ↔ containsP s t ∧ ¬ (a ≤ t ∧ t < b) := by
  unfold erase
  by_cases hab : a < b
  · rw [if_pos hab]; exact erase1_mem hab hs t
  · rw [if_neg hab]
    constructor
    · intro hc
      exact ⟨hc, fun h => absurd (lt_of_le_of_lt h.1 h.2) hab⟩
    · exact And.left

theorem union_canon {A : List Iv} (B : List Iv) (hA : Canon A) :
    Canon (union A B) := by
  induction B generalizing A with
  | nil => exact hA
  | cons p B' ih =>
    rw [union, List.foldl_cons]
    exact ih (insert_canon hA)

theorem union_mem {A : List Iv} (B : List Iv) (hA : Canon A) (t : Seconds) :
    containsP (union A B) t ↔ containsP A t ∨ containsP B t := by
  induction B generalizing A with
  | nil =>
    unfold union
    simp [containsP_nil]
  | cons p B' ih =>
    rw [union, List.foldl_cons]
    have := ih (insert_canon hA) (A := insert p.1 p.2 A)
    rw [union] at this
    rw [this, insert_mem hA, containsP_cons]
    tauto

theorem difference_canon {A : List Iv} (B : List Iv) (hA : Canon A) :
    Canon (difference A B) := by
  induction B generalizing A with
  | nil => exact hA
  | cons p B' ih =>
    rw [difference, List.foldl_cons]
    exact ih (erase_canon hA)

theorem difference_mem {A : List Iv} (B : List Iv) (hA : Canon A) (t : Seconds) :
    containsP (difference A B) t ↔ containsP A t ∧ ¬ containsP B t := by
  induction B generalizing A with
  | nil =>
    unfold difference
    simp [containsP_nil]
  | cons p B' ih =>
    rw [difference, List.foldl_cons]
    have := ih (erase_canon hA) (A := erase p.1 p.2 A)
    rw [difference] at this
    rw [this, erase_mem hA, containsP_cons]
    tauto

/-- Canonical representations are unique: two canonical interval lists with
the same point set are equal (the spec's structural equality). -/
theorem canon_ext {s s' : List Iv} (hs : Canon s) (hs' : Canon s')
    (h : ∀ t, containsP s t ↔ containsP s' t) : s = s' := by
  induction s generalizing s' with
  | nil =>
    rcases s' with _ | ⟨⟨l', h'⟩, r'⟩
    · rfl
    · exfalso
      have hmem : containsP ((l', h') :: r') l' :=
        containsP_cons.mpr (Or.inl ⟨le_refl l', canon_head_lt hs'⟩)
      exact containsP_nil l' ((h l').mpr hmem)
  | cons q r ih =>
    obtain ⟨l, hh⟩ := q
    rcases s' with _ | ⟨⟨l', h'⟩, r'⟩
    · exfalso
      have hmem : containsP ((l, hh) :: r) l :=
        containsP_cons.mpr (Or.inl ⟨le_refl l, canon_head_lt hs⟩)
      exact containsP_nil l ((h l).mp hmem)
    · have hstart : ∀ {x y : Seconds} {u : List Iv},
          Canon ((x, y) :: u) → ∀ p ∈ (x, y) :: u, x ≤ p.1 := by
        intro x y u hc p hp
        rcases List.mem_cons.mp hp with h1 | h1
        · rw [h1]
        · exact le_of_lt (lt_trans (canon_head_lt hc) (canon_lt_of_mem hc p h1))
      have hll : l = l' := by
        have h1 : containsP ((l, hh) :: r) l :=
          containsP_cons.mpr (Or.inl ⟨le_refl l, canon_head_lt hs⟩)
        have h2 : containsP ((l', h') :: r') l' :=
          containsP_cons.mpr (Or.inl ⟨le_refl l', canon_head_lt hs'⟩)
        obtain ⟨p', hp', hc'⟩ := (h l).mp h1
        obtain ⟨p, hp, hc⟩ := (h l').mpr h2
        exact le_antisymm (le_trans (hstart hs p hp) hc.1)
          (le_trans (hstart hs' p' hp') hc'.1)
      have hnotin : ∀ {x y : Seconds} {u : List Iv},
          Canon ((x, y) :: u) → ¬ containsP ((x, y) :: u) y := by
        intro x y u hc hmem
        rcases containsP_cons.mp hmem with h1 | ⟨p, hp, hc1⟩
        · exact lt_irrefl y h1.2
        · exact absurd hc1.1 (not_le.mpr (canon_lt_of_mem hc p hp))
      have hhh : hh = h' := by
        by_contra hne
        rcases lt_or_gt_of_ne hne with hlt | hgt
        · have : containsP ((l', h') :: r') hh :=
            containsP_cons.mpr
              (Or.inl ⟨le_of_lt (hll ▸ canon_head_lt hs), hlt⟩)
          exact hnotin hs ((h hh).mpr this)
        · have : containsP ((l, hh) :: r) h' :=
            containsP_cons.mpr
              (Or.inl ⟨le_of_lt (hll ▸ canon_head_lt hs'), hgt⟩)
          exact hnotin hs' ((h h').mp this)
      subst hll
      subst hhh
      have htail : ∀ t, containsP r t ↔ containsP r' t := by
        intro t
        constructor
        · intro hrt
          obtain ⟨p, hp, hc⟩ := hrt
          have hgt : hh < t := lt_of_lt_of_le (canon_lt_of_mem hs p hp) hc.1
          have := (h t).mp (containsP_cons.mpr (Or.inr ⟨p, hp, hc⟩))
          rcases containsP_cons.mp this with h1 | h1
          · exact absurd hgt (not_lt.mpr (le_of_lt h1.2))
          · exact h1
        · intro hrt
          obtain ⟨p, hp, hc⟩ := hrt
          have hgt : hh < t := lt_of_lt_of_le (canon_lt_of_mem hs' p hp) hc.1
          have := (h t).mpr (containsP_cons.mpr (Or.inr ⟨p, hp, hc⟩))
          rcases containsP_cons.mp this with h1 | h1
          · exact absurd hgt (not_lt.mpr (le_of_lt h1.2))
          · exact h1
      rw [ih (canon_tail hs) (canon_tail hs') htail]

end IntervalSet

open IntervalSet in
theorem step_inv {dec : List Seconds} {s s' : LoaderState}
    (hst : Step dec s s') (hinv : LoaderInv dec s) : LoaderInv dec s' := by
  obtain ⟨hcanon, hcov⟩ := hinv
  cases hst with
  | set_request r hr he => exact ⟨hcanon, hcov⟩
  | set_request_errored he => exact ⟨hcanon, hcov⟩
  | trim he =>
    refine ⟨difference_canon _ hcanon, ?_⟩
    intro τ hτ hc
    have hc' := (difference_mem _ hcanon τ).mp hc
    rw [List.mem_filter]
    refine ⟨hcov τ hτ hc'.1, ?_⟩
    rw [Bool.not_eq_eq_eq_not, Bool.not_true]
    rw [← Bool.not_eq_true, containsB_iff]
    exact hc'.2
  | load a b hab he hw =>
    refine ⟨insert_canon hcanon, ?_⟩
    intro τ hτ hc
    rcases (insert_mem hcanon τ).mp hc with h1 | h1
    · refine List.mem_append_right _ ?_
      rw [List.mem_filter]
      refine ⟨hτ, ?_⟩
      simp [h1.1, h1.2]
    · exact List.mem_append_left _ (hcov τ hτ h1)
  | load_eof a e hae he hfr hw =>
    refine ⟨insert_canon hcanon, ?_⟩
    intro τ hτ hc
    rcases (insert_mem hcanon τ).mp hc with h1 | h1
    · exact hfr τ hτ h1.1 h1.2
    · exact hcov τ hτ h1
  | fail he => exact ⟨hcanon, hcov⟩

theorem reachable_inv {dec : List Seconds} {s : LoaderState}
    (h : Reachable dec s) : LoaderInv dec s := by
  induction h with
  | init => exact ⟨IntervalSet.canon_nil, fun τ _ hc => absurd hc (IntervalSet.containsP_nil τ)⟩
  | step _ hst ih => exact step_inv hst ih

theorem ne_of_digit {c d : Char} (h : c.isDigit = true)
    (hd : d.isDigit = false) : c ≠ d := by
  intro he
  rw [he, hd] at h
  cases h

theorem ws_false_of_digit {c : Char} (h : c.isDigit = true) :
    c.isWhitespace = false := by
  cases hw : c.isWhitespace
  · rfl
  · exfalso
    have : ((c = ' ' ∨ c = '\t') ∨ c = '\r') ∨ c = '\n' := by
      have := hw
      unfold Char.isWhitespace at this
      simpa [Bool.or_eq_true, decide_eq_true_eq] using this
    rcases this with ((h1 | h1) | h1) | h1 <;> (subst h1; cases h)

theorem dropWhile_eq_self_of_head {p : Char → Bool} {s : List Char}
    (h : ∀ c, s.head? = some c → p c = false) : s.dropWhile p = s := by
  cases s with
  | nil => rfl
  | cons c r =>
    have := h c rfl
    simp [List.dropWhile_cons, this]

theorem spanDigits_append {ip rest : List Char}
    (hip : ∀ c ∈ ip, c.isDigit = true)
    (hrest : ∀ c, rest.head? = some c → c.isDigit = false) :
    spanDigits (ip ++ rest) = (ip, rest) := by
  induction ip with
  | nil =>
    cases rest with
    | nil => rfl
    | cons c r =>
      have := hrest c rfl
      simp [spanDigits, this]
  | cons c ip' ih =>
    have hc : c.isDigit = true := hip c (List.mem_cons_self ..)
    have ih' := ih (fun d hd => hip d (List.mem_cons_of_mem _ hd))
    simp [spanDigits, hc, ih']

theorem signSplit_other {c : Char} {r : List Char}
    (h1 : c ≠ '-') (h2 : c ≠ '+') : signSplit (c :: r) = (false, c :: r) := by
  simp [signSplit, h1, h2]

theorem spanDigits_all {l : List Char} (h : ∀ c ∈ l, c.isDigit = true) :
    spanDigits l = (l, []) := by
  have := @spanDigits_append l [] h (fun c hc => absurd hc (by simp))
  simpa using this

theorem stod_decimal {s : List Char} (h : DecimalShape s) :
    ∃ v, stod s = some (v, []) := by
  obtain ⟨sg, ip, fp, rfl, hsg, hip, hfp⟩ := h
  have hfphead : ∀ c, fp.head? = some c → c.isDigit = false := by
    rcases hfp with ⟨rfl, _⟩ | ⟨fd, rfl, _, _⟩
    · intro c hc; exact absurd hc (by simp)
    · intro c hc
      simp only [List.head?_cons, Option.some.injEq] at hc
      subst hc
      decide
  have hsplit : ∃ neg,
      signSplit ((sg ++ ip ++ fp).dropWhile Char.isWhitespace)
        = (neg, ip ++ fp) := by
    rcases hsg with rfl | rfl | rfl
    · simp only [List.nil_append]
      rcases ip with _ | ⟨c, ip'⟩
      · rcases hfp with ⟨rfl, hne⟩ | ⟨fd, rfl, hfd, hne⟩
        · exact absurd rfl hne
        · refine ⟨false, ?_⟩
          simp only [List.nil_append]
          have hws : (('.' :: fd) : List Char).dropWhile Char.isWhitespace
              = '.' :: fd := by
            apply dropWhile_eq_self_of_head
            intro d hd
            simp only [List.head?_cons, Option.some.injEq] at hd
            subst hd
            decide
          rw [hws]
          exact signSplit_other (by decide) (by decide)
      · have hc : c.isDigit = true := hip c (List.mem_cons_self ..)
        refine ⟨false, ?_⟩
        have hws : ((c :: ip') ++ fp).dropWhile Char.isWhitespace
            = (c :: ip') ++ fp := by
          apply dropWhile_eq_self_of_head
          intro d hd
          simp only [List.cons_append, List.head?_cons, Option.some.injEq] at hd
          subst hd
          exact ws_false_of_digit hc
        rw [hws]
        rw [List.cons_append]
        exact signSplit_other (ne_of_digit hc (by decide))
          (ne_of_digit hc (by decide))
    · refine ⟨false, ?_⟩
      have hws : (['+'] ++ ip ++ fp).dropWhile Char.isWhitespace
          = ['+'] ++ ip ++ fp := by
        apply dropWhile_eq_self_of_head
        intro d hd
        simp only [List.cons_append, List.nil_append, List.head?_cons,
          Option.some.injEq] at hd
        subst hd
        decide
      rw [hws]
      show signSplit ('+' :: (ip ++ fp)) = (false, ip ++ fp)
      simp [signSplit]
    · refine ⟨true, ?_⟩
      have hws : (['-'] ++ ip ++ fp).dropWhile Char.isWhitespace
          = ['-'] ++ ip ++ fp := by
        apply dropWhile_eq_self_of_head
        intro d hd
        simp only [List.cons_append, List.nil_append, List.head?_cons,
          Option.some.injEq] at hd
        subst hd
        decide
      rw [hws]
      show signSplit ('-' :: (ip ++ fp)) = (true, ip ++ fp)
      simp [signSplit]
  obtain ⟨neg, hsplit⟩ := hsplit
  have hspan : spanDigits (ip ++ fp) = (ip, fp) := spanDigits_append hip hfphead
  rcases hfp with ⟨rfl, hne⟩ | ⟨fd, rfl, hfd, hne⟩
  · refine ⟨if neg then -((natOfDigits ip : ℚ) + fracOfDigits [])
      else ((natOfDigits ip : ℚ) + fracOfDigits []), ?_⟩
    simp only [stod, hsplit, hspan]
    simp [hne]
  · have hspanfd : spanDigits fd = (fd, []) := spanDigits_all hfd
    have hcond : ¬ (ip = [] ∧ fd = []) := by
      rcases hne with hne | hne
      · exact fun hc => hne hc.1
      · exact fun hc => hne hc.2
    refine ⟨if neg then -((natOfDigits ip : ℚ) + fracOfDigits fd)
      else ((natOfDigits ip : ℚ) + fracOfDigits fd), ?_⟩
    simp only [stod, hsplit, hspan]
    simp [hspanfd, hcond]

theorem run_sys_nil : run_sys [] = none := rfl

theorem run_sys_cons (v e : Int) (rest : List (Int × Int)) :
    run_sys ((v, e) :: rest) =
      if v < 0 ∧ e = EINTR then run_sys rest
      else if 0 ≤ v then some ⟨0, v⟩ else some ⟨e, v⟩ := rfl

/-- C1 counterexample: run the spec's worker algorithm — load `[0, 30)` of
a decoder with frames at 0, 10, 20 (frame interval 10), then shrink the
request to `[25, 30)` and trim.  The reachable state keeps `[25, 30)` in
the cover while `frames` is empty, so media time 27 is covered yet has no
frames entry at any key, refuting cover soundness even with a tolerance of
one frame interval. -/
theorem C1_cover_counterexample :
    Reachable decThree cexTrimmed ∧ ¬ CoverSound decThree 10 cexTrimmed := by
  constructor
  · have h0 : Reachable decThree initLoader := Reachable.init
    have h1 : Reachable decThree loadSt1 := by
      have he : ({initLoader with request := [((0 : Seconds), 30)]})
          = loadSt1 := by decide
      exact he ▸ Reachable.step h0
        (Step.set_request initLoader [((0 : Seconds), 30)] (by decide) rfl)
    have h2 : Reachable decThree loadSt2 := by
      have hw : ∀ t : Seconds, 0 ≤ t → t < 30 →
          IntervalSet.containsP loadSt1.request t := by
        intro t ht1 ht2
        exact ⟨((0 : Seconds), 30), by decide, ht1, ht2⟩
      have he : ({loadSt1 with
          cover := IntervalSet.insert 0 30 loadSt1.cover,
          frames := loadSt1.frames ++ decThree.filter
            (fun τ => decide ((0 : Seconds) ≤ τ) && decide (τ < 30))})
          = loadSt2 := by decide
      exact he ▸ Reachable.step h1 (Step.load loadSt1 0 30 (by decide) rfl hw)
    have h3 : Reachable decThree loadSt3 := by
      have he : ({loadSt2 with request := [((25 : Seconds), 30)]})
          = loadSt3 := by decide
      exact he ▸ Reachable.step h2
        (Step.set_request loadSt2 [((25 : Seconds), 30)] (by decide) rfl)
    have he : ({loadSt3 with
        cover := IntervalSet.difference loadSt3.cover
          (IntervalSet.difference loadSt3.cover loadSt3.request),
        frames := loadSt3.frames.filter
          (fun τ => !(IntervalSet.containsB
            (IntervalSet.difference loadSt3.cover loadSt3.request) τ))})
        = cexTrimmed := by decide
    exact he ▸ Reachable.step h3 (Step.trim loadSt3 rfl)
  · intro h
    obtain ⟨k, hk, _, _⟩ := h (27 : Seconds) (by decide)
    exact absurd hk (by simp [cexTrimmed])

/-- C1 (amended): at every observation of the loader content, every decoder
frame time inside `cover` is present in `frames`; consequently, for every
media time `t` in `cover` whose decoder frame (the one with greatest frame
time at or before `t`) has a frame time that is itself inside `cover`, the
`frames` map has that entry at a key at most `t`.  The original claim —
that every `t` in `cover` has such an entry, within one frame interval —
fails: after a request shrink, the trim step of the spec's worker keeps
trimmed cover regions whose preceding frames were all evicted
(`C1_cover_counterexample`). -/
theorem C1_cover_frames_invariant (dec : List Seconds) (s : LoaderState)
    (hs : Reachable dec s) :
    (∀ τ ∈ dec, IntervalSet.containsP s.cover τ → τ ∈ s.frames) ∧
    (∀ t τ, IntervalSet.containsP s.cover t → frameFor dec t τ →
      IntervalSet.containsP s.cover τ → τ ∈ s.frames ∧ τ ≤ t) := by
  have hinv := reachable_inv hs
  refine ⟨hinv.2, ?_⟩
  intro t τ _ hff hcτ
  exact ⟨hinv.2 τ hff.1 hcτ, hff.2.1⟩

/-- C1 witness: with a decoder frame at time 0 and cover `[0, 2)` reached
by an honest load, the invariant applied at `t = 1` finds frame 0. -/
theorem C1_cover_witness :
    (0 : Seconds) ∈ wState.frames ∧ (0 : Seconds) ≤ (1 : Seconds) := by
  have h0 : Reachable wDec initLoader := Reachable.init
  have h1 : Reachable wDec (⟨[((0 : Seconds), 2)], [], [], none, false⟩ : LoaderState) := by
    have he : ({initLoader with request := [((0 : Seconds), 2)]})
        = (⟨[((0 : Seconds), 2)], [], [], none, false⟩ : LoaderState) := by decide
    exact he ▸ Reachable.step h0
      (Step.set_request initLoader [((0 : Seconds), 2)] (by decide) rfl)
  have h2 : Reachable wDec wState := by
    have hw : ∀ t : Seconds, 0 ≤ t → t < 2 →
        IntervalSet.containsP
          (⟨[((0 : Seconds), 2)], [], [], none, false⟩ : LoaderState).request t := by
      intro t ht1 ht2
      exact ⟨((0 : Seconds), 2), by decide, ht1, ht2⟩
    have he : ({(⟨[((0 : Seconds), 2)], [], [], none, false⟩ : LoaderState) with
        cover := IntervalSet.insert 0 2
          (⟨[((0 : Seconds), 2)], [], [], none, false⟩ : LoaderState).cover,
        frames := (⟨[((0 : Seconds), 2)], [], [], none, false⟩ : LoaderState).frames ++
          wDec.filter (fun τ => decide ((0 : Seconds) ≤ τ) && decide (τ < 2))})
        = wState := by decide
    exact he ▸ Reachable.step h1
      (Step.load (⟨[((0 : Seconds), 2)], [], [], none, false⟩ : LoaderState)
        0 2 (by decide) rfl hw)
  have := (C1_cover_frames_invariant wDec wState h2).2 (1 : Seconds) 0
    (by decide) ⟨by decide, by decide, by decide⟩ (by decide)
  exact this

/-- C2 counterexample: `class MediaDecoder` in `src/media_decoder.h`
declares no member named `seek`, refuting that the media decoder adapter
exposes a `seek(media_time)` primitive. -/
theorem C2_no_seek_counterexample :
    mediaDecoderMembers.contains "seek" = false := by decide

/-- C2 (amended): the media decoder adapter exposes `info()`,
`reached_eof()` and `get_frame_if_ready()`, and exposes no seek primitive
(neither `seek` nor `seek_before` is among its declared members), so no
seek idempotence law is part of the declared interface. -/
theorem C2_media_decoder_members :
    "info" ∈ mediaDecoderMembers ∧
    "reached_eof" ∈ mediaDecoderMembers ∧
    "get_frame_if_ready" ∈ mediaDecoderMembers ∧
    mediaDecoderMembers.contains "seek" = false ∧
    mediaDecoderMembers.contains "seek_before" = false := by decide

/-- C3 counterexample: `class DisplayDriver` in `src/display_output.h`
declares no member named `import_image`, refuting that the display driver
interface provides `import_image(ImageBuffer) → LoadedImage`. -/
theorem C3_no_import_image_counterexample :
    displayDriverMembers.contains "import_image" = false := by decide

/-- C3 (amended): the display driver interface provides `scan_outputs`,
`make_buffer`, `ready_for_update` and `update_output` but declares no
`import_image` operation; the frame loader's cached frames are
nevertheless declared as `std::shared_ptr<LoadedImage>` values in
`FrameLoader::Content::frames`. -/
theorem C3_display_driver_members :
    "scan_outputs" ∈ displayDriverMembers ∧
    "make_buffer" ∈ displayDriverMembers ∧
    "ready_for_update" ∈ displayDriverMembers ∧
    "update_output" ∈ displayDriverMembers ∧
    displayDriverMembers.contains "import_image" = false ∧
    ("frames", "std::map<Seconds, std::shared_ptr<LoadedImage>>")
      ∈ frameLoaderContentFields := by decide

/-- C4 counterexample: `struct FrameLoader::Content` in
`src/frame_loader.h` declares exactly the fields frames, cover and eof —
no `error` field — refuting that the error kind and message are exposed
through an optional error field of the Content snapshot. -/
theorem C4_no_error_field_counterexample :
    (frameLoaderContentFields.map Prod.fst).contains "error" = false := by
  decide

/-- C4 (amended): after a terminal (non-EOF) decoder error the frame
loader freezes: no step out of an errored state changes anything (in
particular `have`/`frames` stay fixed, and `set_request` is accepted as a
no-op).  The `Content` snapshot declared in `src/frame_loader.h` has no
error field, so the error kind and message are not exposed through the
value returned by `content()`. -/
theorem C4_error_freeze (dec : List Seconds) (s s' : LoaderState)
    (hst : Step dec s s') (he : s.error = true) :
    s' = s ∧ (frameLoaderContentFields.map Prod.fst).contains "error" = false := by
  refine ⟨?_, by decide⟩
  cases hst with
  | set_request r hr he' => rw [he'] at he; cases he
  | set_request_errored he' => rfl
  | trim he' => rw [he'] at he; cases he
  | load a b hab he' hw => rw [he'] at he; cases he
  | load_eof a e hae he' hfr hw => rw [he'] at he; cases he
  | fail he' => rw [he'] at he; cases he

/-- C4 witness: the freeze theorem applied to the only step available from
a concrete errored loader state. -/
theorem C4_error_freeze_witness :
    errState = errState ∧
    (frameLoaderContentFields.map Prod.fst).contains "error" = false :=
  C4_error_freeze [] errState errState
    (Step.set_request_errored errState rfl) rfl

/-- C5: for all IntervalSets A and B over Seconds,
`(A ∪ B) ∖ B = A ∖ B`, where equality is structural equality on the
canonical (sorted, disjoint, non-adjacent) representation. -/
theorem C5_union_difference (A B : List Iv)
    (hA : IntervalSet.Canon A) (hB : IntervalSet.Canon B) :
    IntervalSet.difference (IntervalSet.union A B) B
      = IntervalSet.difference A B := by
  have hAB : IntervalSet.Canon (IntervalSet.union A B) :=
    IntervalSet.union_canon B hA
  have _ : IntervalSet.Canon B := hB
  apply IntervalSet.canon_ext (IntervalSet.difference_canon B hAB)
    (IntervalSet.difference_canon B hA)
  intro t
  rw [IntervalSet.difference_mem B hAB, IntervalSet.difference_mem B hA,
    IntervalSet.union_mem B hA]
  tauto

/-- C5 witness: `([0,2) ∪ [1,3)) ∖ [1,3) = [0,2) ∖ [1,3)` evaluated
concretely on canonical representations (both sides compute to `[0,1)`). -/
theorem C5_union_difference_witness :
    IntervalSet.difference
        (IntervalSet.union [((0 : Seconds), 2)] [((1 : Seconds), 3)])
        [((1 : Seconds), 3)]
      = IntervalSet.difference [((0 : Seconds), 2)] [((1 : Seconds), 3)] :=
  C5_union_difference _ _ (by decide) (by decide)

/-- C6: destroying a FileDescriptor invokes close on the underlying raw
descriptor exactly once — the destructor body issues exactly one
`::close(fd)`, and no other method of the descriptor ever issues a close. -/
theorem C6_close_on_drop (fd : Int) :
    (FileDescriptorDef.destructor fd).count (SysCall.close fd) = 1 ∧
    (FileDescriptorDef.read fd).count (SysCall.close fd) = 0 ∧
    (FileDescriptorDef.write fd).count (SysCall.close fd) = 0 ∧
    (FileDescriptorDef.ioctl fd).count (SysCall.close fd) = 0 := by
  refine ⟨?_, ?_, ?_, ?_⟩ <;>
    simp [FileDescriptorDef.destructor, FileDescriptorDef.read,
      FileDescriptorDef.write, FileDescriptorDef.ioctl]

/-- C7: every declared consumer of the OS facade in the `src/` headers
receives the UnixSystem handle passed in (a parameter or a context field
such as `ScriptContext::sys`); no declaration under `src/` obtains it by
calling the process-global `global_system()` accessor. -/
theorem C7_sys_passed_in :
    unixSystemConsumers.all (fun c => decide (c.2 = SysAcq.passedIn)) = true ∧
    globalSystemCallersInSrc = [] := by decide

/-- C8 counterexample: for a call whose final invocation returns -1 with
errno 0, `run_sys` returns `{err = 0, value = -1}`: err is 0 although the
final return value is negative, refuting the claimed "if and only if". -/
theorem C8_err_zero_counterexample :
    run_sys [((-1 : Int), 0)] = some ⟨0, -1⟩ ∧ ¬ ((0 : Int) ≤ -1) := by
  decide

/-- C8 (amended): `run_sys` retries exactly while the call returns a
negative value with errno EINTR; the result comes from the first
invocation with a different outcome, with `err = 0` if its return value
is non-negative and `err` equal to its errno otherwise (so `err = 0` with
a negative value occurs only when that final errno is itself 0). -/
theorem C8_run_sys_retry (l : List (Int × Int)) (r : ErrnoOr)
    (h : run_sys l = some r) :
    ∃ pre v e post, l = pre ++ (v, e) :: post ∧
      (∀ p ∈ pre, p.1 < 0 ∧ p.2 = EINTR) ∧
      ¬ (v < 0 ∧ e = EINTR) ∧
      r.value = v ∧ r.err = if 0 ≤ v then 0 else e := by
  induction l with
  | nil => rw [run_sys_nil] at h; cases h
  | cons p rest ih =>
    obtain ⟨v, e⟩ := p
    rw [run_sys_cons] at h
    by_cases hc : v < 0 ∧ e = EINTR
    · rw [if_pos hc] at h
      obtain ⟨pre, v', e', post, heq, hpre, hnot, hval, herr⟩ := ih h
      refine ⟨(v, e) :: pre, v', e', post, ?_, ?_, hnot, hval, herr⟩
      · rw [heq, List.cons_append]
      · intro q hq
        rcases List.mem_cons.mp hq with h' | h'
        · rw [h']; exact hc
        · exact hpre q h'
    · rw [if_neg hc] at h
      by_cases hv : 0 ≤ v
      · rw [if_pos hv] at h
        refine ⟨[], v, e, rest, by simp, by simp, hc, ?_, ?_⟩
        · rw [← Option.some.injEq] at h
          cases h
          rfl
        · cases h
          rw [if_pos hv]
      · rw [if_neg hv] at h
        refine ⟨[], v, e, rest, by simp, by simp, hc, ?_, ?_⟩
        · cases h
          rfl
        · cases h
          rw [if_neg hv]

/-- C8 witness: one EINTR-failed invocation followed by a successful one;
`run_sys` skips the first and returns `{err = 0, value = 3}`. -/
theorem C8_run_sys_retry_witness :
    ∃ pre v e post,
      ([((-1 : Int), (4 : Int)), (3, 9)]) = pre ++ (v, e) :: post ∧
      (∀ p ∈ pre, p.1 < 0 ∧ p.2 = EINTR) ∧
      ¬ (v < 0 ∧ e = EINTR) ∧
      (ErrnoOr.mk 0 3).value = v ∧
      (ErrnoOr.mk 0 3).err = if 0 ≤ v then 0 else e :=
  C8_run_sys_retry [((-1 : Int), 4), (3, 9)] ⟨0, 3⟩ (by decide)

/-- C9: the thread signal's `set` is idempotent on the flag and never
loses a wakeup: any number of consecutive `set` calls leave the flag as a
single `set` does; a wait that starts after at least one `set` returns
signaled without blocking and consumes the flag; with the flag consumed a
plain `wait` blocks and the timed waits can only time out — so exactly one
subsequent wait consumes the signal. -/
theorem C9_thread_signal :
    (∀ f, (ThreadSignalDef.set (ThreadSignalDef.set f).1).1
      = (ThreadSignalDef.set f).1) ∧
    (∀ f, ThreadSignalDef.wait (ThreadSignalDef.set f).1 = some false) ∧
    ThreadSignalDef.wait false = none ∧
    (∀ f, ThreadSignalDef.wait_for (ThreadSignalDef.set f).1 = (true, false)) ∧
    ThreadSignalDef.wait_for false = (false, false) ∧
    (∀ f, ThreadSignalDef.wait_until (ThreadSignalDef.set f).1 = (true, false)) ∧
    ThreadSignalDef.wait_until false = (false, false) := by decide

/-- C10: `parse_time` returns the `std::stod` value for every string that
is entirely a decimal number; for a string with a numeric prefix that is
not entirely numeric it returns the result of the first of the four date
formats that parses, throwing `std::invalid_argument` when all four fail;
and when `std::stod` finds no numeric prefix — including the empty
string — it throws `std::invalid_argument` without ever attempting the
date formats (the result is independent of the date interpretation). -/
theorem C10_parse_time_behavior :
    (∀ I s, DecimalShape s →
      ∃ v, stod s = some (v, []) ∧ parse_time I s = TimeResult.ok v) ∧
    (∀ I s d rest, stod s = some (d, rest) → rest ≠ [] →
      (∀ t, fromStreamFirst I pividDateFormats s = some t →
        parse_time I s = TimeResult.ok t) ∧
      (fromStreamFirst I pividDateFormats s = none →
        parse_time I s = TimeResult.invalid_argument "Bad date")) ∧
    (∀ I J s, stod s = none →
      parse_time I s = TimeResult.invalid_argument "stod" ∧
      parse_time I s = parse_time J s) ∧
    stod [] = none ∧
    pividDateFormats.length = 4 := by
  have hnil : stod ([] : List Char) = none := by decide
  refine ⟨?_, ?_, ?_, hnil, by decide⟩
  · intro I s hds
    obtain ⟨v, hv⟩ := stod_decimal hds
    refine ⟨v, hv, ?_⟩
    have hne : s ≠ [] := by
      intro h
      rw [h, hnil] at hv
      cases hv
    simp only [parse_time, hv]
    rw [if_pos (⟨hne, by trivial⟩ : s ≠ [] ∧ _)]
  · intro I s d rest h hrest
    constructor
    · intro t ht
      simp only [parse_time, h]
      rw [if_neg (fun hc => hrest hc.2), ht]
    · intro ht
      simp only [parse_time, h]
      rw [if_neg (fun hc => hrest hc.2), ht]
  · intro I J s h
    simp only [parse_time, h]
    refine ⟨?_, ?_⟩ <;> trivial

/-- C10 witness: the decimal branch applied to the concrete string "3.5"
under an interpretation that parses no date. -/
theorem C10_parse_time_witness :
    ∃ v, stod ['3', '.', '5'] = some (v, []) ∧
      parse_time (fun _ _ => none) ['3', '.', '5'] = TimeResult.ok v :=
  C10_parse_time_behavior.1 (fun _ _ => none) ['3', '.', '5']
    ⟨[], ['3'], ['.', '5'], rfl, Or.inl rfl, by decide,
      Or.inr ⟨['5'], rfl, by decide, Or.inl (by decide)⟩⟩

end Pivid
